import Mathlib

/-!
Verification of the liteMQ broker (src/server.c, src/persistence.c) against its
natural-language specification.

Byte buffers are modelled as `List Char` (one `Char` per byte; buffers are
assumed NUL-free, as C string handling stops at the first NUL).  Machine
integers are modelled as `Int`/`Nat`.  File-system state for a single topic's
log is modelled as `Option (List Char)` (`Option.none` = the log file does not
exist).  I/O effects (bytes written to a socket, `close` calls, calls into the
persistence layer) are returned explicitly in result structures.
-/

namespace LiteMQ

/-- BUFFER_SIZE from server.c / persistence.c. -/
def BUFFER_SIZE : Nat := 1024

/-- MAX_TOPIC_LEN from server.c. -/
def MAX_TOPIC_LEN : Nat := 50

/-- C `isspace` on the default locale: space, \t, \n, \v, \f, \r. -/
def isSpaceC (c : Char) : Bool :=
  decide (c.toNat = 32 ∨ c.toNat = 9 ∨ c.toNat = 10 ∨ c.toNat = 11 ∨ c.toNat = 12 ∨ c.toNat = 13)

/-- Decimal digit recognition, as used by `strtol` (base 10). -/
def isDigitC (c : Char) : Bool :=
  decide (48 ≤ c.toNat ∧ c.toNat ≤ 57)

/-- Consume a maximal run of decimal digits, accumulating their value
(the digit-consuming core of `strtol`).  Returns the value and the rest. -/
def parseDigits : List Char → Nat → Nat × List Char
  | [], acc => (acc, [])
  | c :: cs, acc =>
    if isDigitC c then parseDigits cs (acc * 10 + (c.toNat - 48)) else (acc, c :: cs)

/-- Whether a byte sequence starts with a decimal digit. -/
def headIsDigit : List Char → Bool
  | [] => false
  | c :: _ => isDigitC c

/-- C `strtol(s, &end, 10)`: skip leading whitespace, optional sign, maximal
digit run.  If no digits are consumed the result is 0 and `end` is reset to
the original pointer (C99 semantics).  Overflow clamping is not modelled
(values are unbounded `Int`). -/
def strtolAux (s : List Char) : List Char → Int × List Char
  | [] => (0, s)
  | c :: r =>
    if c = '-' then
      if headIsDigit r then
        let p := parseDigits r 0
        (-(p.1 : Int), p.2)
      else (0, s)
    else if c = '+' then
      if headIsDigit r then
        let p := parseDigits r 0
        ((p.1 : Int), p.2)
      else (0, s)
    else if isDigitC c then
      let p := parseDigits (c :: r) 0
      ((p.1 : Int), p.2)
    else (0, s)

def strtolC (s : List Char) : Int × List Char :=
  strtolAux s (s.dropWhile isSpaceC)

/-- Left fold of decimal digits onto an accumulator (proof scaffolding for
relating `parseDigits` to the rendered digits). -/
def digitsFold (a : Nat) (ds : List Char) : Nat :=
  ds.foldl (fun acc c => acc * 10 + (c.toNat - 48)) a

/-- Decimal rendering of a natural number, fuel-indexed so that it is a
structural recursion (any fuel above the number of digits gives the same
answer; `natDecimal` supplies enough). -/
def natDecimalFuel : Nat → Nat → List Char
  | 0, _ => []
  | f + 1, n =>
    if n < 10 then [Char.ofNat (48 + n)]
    else natDecimalFuel f (n / 10) ++ [Char.ofNat (48 + n % 10)]

/-- Decimal rendering of a natural number (the digits `printf` emits). -/
def natDecimal (n : Nat) : List Char := natDecimalFuel (n + 1) n

/-- Decimal rendering of an integer, as `fprintf`'s `%ld` emits it. -/
def intDecimal : Int → List Char
  | Int.ofNat n => natDecimal n
  | Int.negSucc m => '-' :: natDecimal (m + 1)

/-- One `fgets` call on a buffer of capacity `lim + 1`: take up to `lim`
bytes, stopping right after the first newline.  Returns the chunk read and
the rest of the file. -/
def chunkTake : Nat → List Char → List Char × List Char
  | _, [] => ([], [])
  | 0, s => ([], s)
  | lim + 1, c :: cs =>
    if c = '\n' then ([c], cs)
    else
      let p := chunkTake lim cs
      (c :: p.1, p.2)

/-- Repeated `fgets` until end of file, fuel-indexed (fuel `≥` length of the
input suffices, since a nonempty input always yields a nonempty chunk when
`1 ≤ lim`). -/
def chunksFuel (lim : Nat) : Nat → List Char → List (List Char)
  | 0, _ => []
  | _, [] => []
  | f + 1, s =>
    let p := chunkTake lim s
    p.1 :: chunksFuel lim f p.2

/-- The chunk sequence `fgets(line, 1024, fp)` produces on a file's bytes
(persistence.c reads with a 1024-byte line buffer, so up to 1023 bytes per
chunk). -/
def fgetsChunks (s : List Char) : List (List Char) := chunksFuel 1023 s.length s

/-- The lines of a file: newline-terminated segments plus a final unterminated
segment if any (no buffer limit — used to state properties about "lines in
the log"). -/
def fileLines (s : List Char) : List (List Char) := chunksFuel s.length s.length s

/-- persistence_mode_t from persistence.h. -/
inductive PersistenceMode
  | pnone
  | pall
  | ptimed
  deriving DecidableEq

/-- client_type_t from server.c. -/
inductive ClientType
  | unknown
  | subscriber
  deriving DecidableEq

/-- client_t from server.c: fd, type, subscribed topic. -/
structure Client where
  fd : Int
  type : ClientType
  topic : List Char
  deriving DecidableEq

/-- A freshly reset client slot (fd = -1, type UNKNOWN, topic cleared),
as produced by the disconnect/error paths in server.c. -/
def resetClient : Client := { fd := -1, type := ClientType.unknown, topic := [] }

/-- Result of `persist_message`: the topic's log file afterwards, and whether
the log file was opened (hence created if absent). -/
structure PersistResult where
  file : Option (List Char)
  opened : Bool
  deriving DecidableEq

/-- persist_message (persistence.c lines 27-46), for one topic's log file.
`now` models `time(NULL)`.  The `fopen` failure path (message dropped) is not
modelled: the open is assumed to succeed. -/
def persist_message (topic message : List Char) (p_mode : PersistenceMode) (now : Int)
    (file : Option (List Char)) : PersistResult :=
  match p_mode with
  | PersistenceMode.pnone => { file := file, opened := false }
  | PersistenceMode.pall => { file := Option.some (file.getD [] ++ message), opened := true }
  | PersistenceMode.ptimed =>
      { file := Option.some (file.getD [] ++ intDecimal now ++ ' ' :: message), opened := true }

/-- The timestamp `strtol` parses from the front of a log line
(persistence.c line 92). -/
def tsOf (line : List Char) : Int := (strtolC line).1

/-- The message content after the parsed timestamp, with one following space
skipped if present (persistence.c lines 92-96). -/
def skipOneSpace : List Char → List Char
  | [] => []
  | c :: r => if c = ' ' then r else c :: r

def contentAfterTs (line : List Char) : List Char :=
  skipOneSpace (strtolC line).2

/-- The retention test of timed replay: `now - msg_time <= p_duration`
(persistence.c line 98). -/
def timedKeep (now p_duration : Int) (line : List Char) : Bool :=
  decide (now - tsOf line ≤ p_duration)

/-- The bytes `fprintf(fp_write, "%ld %s", msg_time, msg_content)` appends to
the rewritten log for a surviving entry (persistence.c line 103). -/
def rewriteEntry (line : List Char) : List Char :=
  intDecimal (tsOf line) ++ ' ' :: contentAfterTs line

/-- The loop body of timed replay for one log line: bytes sent to the
subscriber, and bytes appended to the temp file (persistence.c lines 87-106). -/
def timedStep (now p_duration : Int) (line : List Char) : List (List Char) × List Char :=
  if timedKeep now p_duration line then ([contentAfterTs line], rewriteEntry line)
  else ([], [])

/-- The `while (fgets(...))` loop of send_persisted_messages over the chunk
list: accumulated socket writes and accumulated temp-file bytes
(persistence.c lines 86-114). -/
def replayChunks (p_mode : PersistenceMode) (p_duration now : Int) :
    List (List Char) → List (List Char) × List Char
  | [] => ([], [])
  | line :: rest =>
    let tl := replayChunks p_mode p_duration now rest
    match p_mode with
    | PersistenceMode.ptimed =>
        let st := timedStep now p_duration line
        (st.1 ++ tl.1, st.2 ++ tl.2)
    | PersistenceMode.pall => (line :: tl.1, tl.2)
    | PersistenceMode.pnone => (line :: tl.1, tl.2)

/-- Result of `send_persisted_messages`: the byte chunks written to the
subscriber's socket, the topic's log file afterwards, and whether an `fopen`
was attempted. -/
structure ReplayResult where
  sends : List (List Char)
  file : Option (List Char)
  opened : Bool
  deriving DecidableEq

/-- send_persisted_messages (persistence.c lines 59-124), for one topic's log
file.  Under PERSIST_NONE it returns before any fopen.  A missing log file is
an empty, valid history.  Under PERSIST_TIMED the rewritten temp file replaces
the log via rename, modelled as the final file contents being the temp
contents. -/
def send_persisted_messages (fd : Int) (topic : List Char) (p_mode : PersistenceMode)
    (p_duration now : Int) (file : Option (List Char)) : ReplayResult :=
  match p_mode with
  | PersistenceMode.pnone => { sends := [], file := file, opened := false }
  | _ =>
    match file with
    | Option.none => { sends := [], file := Option.none, opened := true }
    | Option.some content =>
      let r := replayChunks p_mode p_duration now (fgetsChunks content)
      match p_mode with
      | PersistenceMode.ptimed =>
          { sends := r.1, file := Option.some r.2, opened := true }
      | _ => { sends := r.1, file := Option.some content, opened := true }

/-- The framed delivery `snprintf(..., "MSG %s\n%s", pub_topic, msg_start)`
formats (server.c line 271). -/
def frameBytes (topic msg : List Char) : List Char :=
  'M' :: 'S' :: 'G' :: ' ' :: topic ++ '\n' :: msg

/-- The fan-out loop of server.c lines 268-280 over the registry slots
(parallel `fds[j].fd` / `clients[j]` arrays, slots 1..MAX_CLIENTS).  A slot
receives the frame iff its pollfd is live, it is a subscriber to the topic,
and the frame fits the 1024-byte send buffer (`snprintf` would return
`>= BUFFER_SIZE` otherwise and the slot is skipped with `continue`).  The
write goes to `clients[j].fd`, and a successful write sends the whole frame. -/
def fanout (pub_topic msg : List Char) : List Int → List Client → List (Int × List Char)
  | _, [] => []
  | [], _ => []
  | fd :: fds, c :: cs =>
    if fd ≠ -1 ∧ c.type = ClientType.subscriber ∧ c.topic = pub_topic then
      if BUFFER_SIZE ≤ (frameBytes pub_topic msg).length then fanout pub_topic msg fds cs
      else (c.fd, frameBytes pub_topic msg) :: fanout pub_topic msg fds cs
    else fanout pub_topic msg fds cs

/-- `strchr(s, '\n')` as an offset: index of the first newline, if any. -/
def strchr_nl : List Char → Option Nat
  | [] => Option.none
  | c :: cs => if c = '\n' then Option.some 0 else (strchr_nl cs).map (fun k => k + 1)

/-- Result of one `handle_client_data` invocation on a readable slot: the
updated pollfd-fd array and client array, the fd passed to `close` (if any),
the topic handed to `send_persisted_messages` (if any), the `(topic, message)`
handed to `persist_message` (if any), and the fan-out socket writes. -/
structure HandleResult where
  fds : List Int
  clients : List Client
  closedFd : Option Int
  replay : Option (List Char)
  persist : Option (List Char × List Char)
  sends : List (Int × List Char)
  deriving DecidableEq

/-- server.c lines 253-301: the `PUB` check reached after the Unknown-state
dispatch (or directly when the client is already a subscriber), followed by
the subscriber-unexpected-data branch.  `client` is the possibly-updated slot
state at that program point; `closedAcc`/`replayAcc` carry effects already
performed earlier in the same invocation. -/
def pubPhase (i : Nat) (buffer : List Char) (pfdFd : Int) (client : Client)
    (fds : List Int) (clients : List Client)
    (replayAcc : Option (List Char)) (closedAcc : Option Int) : HandleResult :=
  if buffer.take 4 = "PUB ".data then
    match strchr_nl buffer with
    | Option.some k =>
      if 0 < (k : Int) - 4 ∧ (k : Int) - 4 < (MAX_TOPIC_LEN : Int) then
        let pubTopic := (buffer.drop 4).take (k - 4)
        let msg := buffer.drop (k + 1)
        { fds := fds.set i (-1), clients := clients.set i { client with fd := -1 },
          closedFd := Option.some pfdFd, replay := replayAcc,
          persist := Option.some (pubTopic, msg),
          sends := fanout pubTopic msg fds clients }
      else
        { fds := fds.set i (-1), clients := clients.set i { client with fd := -1 },
          closedFd := Option.some pfdFd, replay := replayAcc,
          persist := Option.none, sends := [] }
    | Option.none =>
      { fds := fds.set i (-1), clients := clients.set i { client with fd := -1 },
        closedFd := Option.some pfdFd, replay := replayAcc,
        persist := Option.none, sends := [] }
  else if client.type = ClientType.subscriber then
    { fds := fds.set i (-1), clients := clients.set i resetClient,
      closedFd := Option.some pfdFd, replay := replayAcc,
      persist := Option.none, sends := [] }
  else
    { fds := fds, clients := clients, closedFd := closedAcc, replay := replayAcc,
      persist := Option.none, sends := [] }

/-- handle_client_data (server.c lines 195-301) for a positive-length read
whose bytes are `buffer`, on slot `i` of the parallel `fds`/`clients` arrays
(slots 1..MAX_CLIENTS of the C arrays, 0-based here).  The `valread <= 0`
disconnect path is not modelled (no claim concerns it).  Note the source's
successful-SUB branch does not return, so control continues into the
line-253 `PUB`/subscriber checks with the just-updated client state. -/
def handle_client_data (i : Nat) (buffer : List Char) (fds : List Int)
    (clients : List Client) : HandleResult :=
  let pfdFd := fds.getD i (-1)
  let client := clients.getD i resetClient
  if client.type = ClientType.unknown then
    if buffer.take 4 = "SUB ".data then
      let topicStart := buffer.drop 4
      let topicLen :=
        match strchr_nl topicStart with
        | Option.some k => k
        | Option.none => topicStart.length
      if 0 < topicLen ∧ topicLen < MAX_TOPIC_LEN then
        let client1 : Client :=
          { fd := client.fd, type := ClientType.subscriber, topic := topicStart.take topicLen }
        pubPhase i buffer pfdFd client1 fds (clients.set i client1)
          (Option.some (topicStart.take topicLen)) Option.none
      else
        pubPhase i buffer (-1) resetClient (fds.set i (-1)) (clients.set i resetClient)
          Option.none (Option.some pfdFd)
    else if buffer.take 4 = "PUB ".data then
      pubPhase i buffer pfdFd client fds clients Option.none Option.none
    else
      { fds := fds.set i (-1), clients := clients.set i resetClient,
        closedFd := Option.some pfdFd, replay := Option.none,
        persist := Option.none, sends := [] }
  else
    pubPhase i buffer pfdFd client fds clients Option.none Option.none

/-- handle_new_connection (server.c lines 158-182) after a successful accept
of `newSocket`: scan slots 1..MAX_CLIENTS for a free pollfd slot; register the
socket in the first free slot (pollfd fd and client fd both set; type and
topic are untouched), or close the new socket if no slot is free.  Returns
the updated arrays and the fd passed to `close` (if any). -/
def handle_new_connection (newSocket : Int) :
    List Int → List Client → (List Int × List Client) × Option Int
  | [], [] => (([], []), Option.some newSocket)
  | fd :: fds, c :: cs =>
    if fd = -1 then
      ((newSocket :: fds, { c with fd := newSocket } :: cs), Option.none)
    else
      let r := handle_new_connection newSocket fds cs
      ((fd :: r.1.1, c :: r.1.2), r.2)
  | fds, cs => ((fds, cs), Option.some newSocket)

/-- Specification-side description of PUB parsing (spec §4.2/§4.3): the
`(topic, message)` a buffer starting with `PUB ` yields, or `Option.none`
when the newline is missing or the topic is empty/oversized.  Stated from the
spec's words, for comparison with the source-derived `handle_client_data`. -/
def pubParse (buffer : List Char) : Option (List Char × List Char) :=
  match strchr_nl buffer with
  | Option.none => Option.none
  | Option.some k =>
    if 0 < (k : Int) - 4 ∧ (k : Int) - 4 < (MAX_TOPIC_LEN : Int) then
      Option.some ((buffer.drop 4).take (k - 4), buffer.drop (k + 1))
    else Option.none

/-! ### Lemmas about `fgets`-style chunking -/

theorem chunkTake_snd_le : ∀ (lim : Nat) (s : List Char), (chunkTake lim s).2.length ≤ s.length
  | _, [] => by simp [chunkTake]
  | 0, _ :: _ => by simp [chunkTake]
  | lim + 1, c :: cs => by
    simp only [chunkTake]
    split
    · simp
    · simpa using Nat.le_succ_of_le (chunkTake_snd_le lim cs)

theorem chunkTake_snd_lt (lim : Nat) (s : List Char) (hs : s ≠ []) (hlim : 1 ≤ lim) :
    (chunkTake lim s).2.length < s.length := by
  cases s with
  | nil => exact absurd rfl hs
  | cons c cs =>
    cases lim with
    | zero => omega
    | succ lim =>
      simp only [chunkTake]
      split
      · simp
      · exact Nat.lt_succ_of_le (by simpa using chunkTake_snd_le lim cs)

theorem chunkTake_line : ∀ (lim : Nat) (l rest : List Char), l ≠ [] →
    l.getLast? = Option.some '\n' → (∀ c ∈ l.dropLast, c ≠ '\n') → l.length ≤ lim →
    chunkTake lim (l ++ rest) = (l, rest)
  | _, [], _, h, _, _, _ => absurd rfl h
  | 0, c :: l, _, _, _, _, hlen => by simp at hlen
  | lim + 1, [c], rest, _, hlast, _, _ => by
    simp only [List.getLast?_singleton, Option.some.injEq] at hlast
    subst hlast
    simp [chunkTake]
  | lim + 1, c :: d :: l, rest, _, hlast, hmid, hlen => by
    have hc : c ≠ '\n' := hmid c (by simp [List.dropLast_cons₂])
    have ih := chunkTake_line lim (d :: l) rest (by simp)
      (by simpa using hlast)
      (fun x hx => hmid x (by simp [List.dropLast_cons₂, hx]))
      (by simpa using hlen)
    have hunfold : chunkTake (lim + 1) ((c :: d :: l) ++ rest) =
        if c = '\n' then ([c], (d :: l) ++ rest)
        else ((c :: (chunkTake lim ((d :: l) ++ rest)).1),
              (chunkTake lim ((d :: l) ++ rest)).2) := rfl
    rw [hunfold, if_neg hc, ih]

theorem length_le_flatten_length {l : List Char} :
    ∀ {lines : List (List Char)}, l ∈ lines → l.length ≤ lines.flatten.length
  | [], h => by simp at h
  | x :: xs, h => by
    rcases List.mem_cons.mp h with h | h
    · subst h; simp [List.flatten_cons]
    · have := length_le_flatten_length h
      simp only [List.flatten_cons, List.length_append]
      omega

theorem chunksFuel_flatten (lim : Nat) : ∀ (lines : List (List Char)) (f : Nat),
    (∀ l ∈ lines, l ≠ [] ∧ l.getLast? = Option.some '\n' ∧
      (∀ c ∈ l.dropLast, c ≠ '\n') ∧ l.length ≤ lim) →
    lines.flatten.length ≤ f →
    chunksFuel lim f lines.flatten = lines
  | [], f, _, _ => by cases f <;> simp [chunksFuel]
  | l :: ls, f, h, hf => by
    obtain ⟨h1, h2, h3, h4⟩ := h l (by simp)
    obtain ⟨c, l', rfl⟩ : ∃ c l', l = c :: l' := by
      cases l with
      | nil => exact absurd rfl h1
      | cons c l' => exact ⟨c, l', rfl⟩
    cases f with
    | zero =>
      exfalso
      simp only [List.flatten_cons, List.length_append, List.length_cons] at hf
      omega
    | succ f =>
      have hstep : chunkTake lim ((c :: l') ++ ls.flatten) = (c :: l', ls.flatten) :=
        chunkTake_line lim (c :: l') ls.flatten h1 h2 h3 h4
      have hrec : chunksFuel lim f ls.flatten = ls := by
        apply chunksFuel_flatten lim ls f (fun x hx => h x (by simp [hx]))
        simp only [List.flatten_cons, List.length_append] at hf
        simp only [List.length_cons] at hf ⊢
        omega
      have hunfold : chunksFuel lim (f + 1) ((c :: l') ++ ls.flatten) =
          (chunkTake lim ((c :: l') ++ ls.flatten)).1 ::
            chunksFuel lim f (chunkTake lim ((c :: l') ++ ls.flatten)).2 := rfl
      rw [List.flatten_cons, hunfold, hstep, hrec]

theorem fgetsChunks_flatten (lines : List (List Char))
    (h : ∀ l ∈ lines, l ≠ [] ∧ l.getLast? = Option.some '\n' ∧
      (∀ c ∈ l.dropLast, c ≠ '\n') ∧ l.length ≤ 1023) :
    fgetsChunks lines.flatten = lines :=
  chunksFuel_flatten 1023 lines _ h le_rfl

theorem fileLines_flatten (lines : List (List Char))
    (h : ∀ l ∈ lines, l ≠ [] ∧ l.getLast? = Option.some '\n' ∧
      (∀ c ∈ l.dropLast, c ≠ '\n')) :
    fileLines lines.flatten = lines := by
  apply chunksFuel_flatten _ lines _ _ le_rfl
  intro l hl
  obtain ⟨h1, h2, h3⟩ := h l hl
  exact ⟨h1, h2, h3, length_le_flatten_length hl⟩

theorem chunkTake_fst_dropLast : ∀ (lim : Nat) (s : List Char),
    ∀ c ∈ (chunkTake lim s).1.dropLast, c ≠ '\n'
  | _, [] => by simp [chunkTake]
  | 0, _ :: _ => by simp [chunkTake]
  | lim + 1, c :: cs => by
    simp only [chunkTake]
    split
    · simp
    · rename_i hc
      intro x hx
      cases hp : (chunkTake lim cs).1 with
      | nil => simp [hp] at hx
      | cons y ys =>
        simp only [hp, List.dropLast_cons₂, List.mem_cons] at hx
        rcases hx with rfl | hx
        · exact hc
        · exact chunkTake_fst_dropLast lim cs x (by simp [hp, hx])

theorem mem_chunksFuel_dropLast (lim : Nat) : ∀ (f : Nat) (s : List Char),
    ∀ e ∈ chunksFuel lim f s, ∀ c ∈ e.dropLast, c ≠ '\n'
  | 0, _ => by simp [chunksFuel]
  | _ + 1, [] => by simp [chunksFuel]
  | f + 1, c :: cs => by
    simp only [chunksFuel, List.mem_cons]
    rintro e (rfl | he)
    · exact chunkTake_fst_dropLast lim (c :: cs)
    · exact mem_chunksFuel_dropLast lim f _ e he

theorem mem_fgetsChunks_dropLast (content : List Char) :
    ∀ e ∈ fgetsChunks content, ∀ c ∈ e.dropLast, c ≠ '\n' :=
  mem_chunksFuel_dropLast 1023 content.length content

/-! ### Lemmas about decimal rendering and `strtol` parsing -/

theorem toNat_digitChar {d : Nat} (hd : d < 10) : (Char.ofNat (48 + d)).toNat = 48 + d := by
  interval_cases d <;> decide

theorem isDigitC_digitChar {d : Nat} (hd : d < 10) : isDigitC (Char.ofNat (48 + d)) = true := by
  interval_cases d <;> decide

theorem natDecimalFuel_congr (n : Nat) : ∀ (f g : Nat), n < f → n < g →
    natDecimalFuel f n = natDecimalFuel g n := by
  induction n using Nat.strong_induction_on with
  | _ n ih =>
    intro f g hf hg
    obtain ⟨f', rfl⟩ : ∃ f', f = f' + 1 := ⟨f - 1, by omega⟩
    obtain ⟨g', rfl⟩ : ∃ g', g = g' + 1 := ⟨g - 1, by omega⟩
    simp only [natDecimalFuel]
    split
    · rfl
    · rename_i h10
      have hdiv : n / 10 < n := Nat.div_lt_self (by omega) (by omega)
      rw [ih (n / 10) hdiv f' g' (by omega) (by omega)]

theorem natDecimal_eq (n : Nat) : natDecimal n =
    if n < 10 then [Char.ofNat (48 + n)]
    else natDecimal (n / 10) ++ [Char.ofNat (48 + n % 10)] := by
  show natDecimalFuel (n + 1) n = _
  simp only [natDecimalFuel]
  split
  · rfl
  · rename_i h10
    have hdiv : n / 10 < n := Nat.div_lt_self (by omega) (by omega)
    rw [natDecimalFuel_congr (n / 10) n (n / 10 + 1) (by omega) (by omega)]
    rfl

theorem natDecimal_ne_nil (n : Nat) : natDecimal n ≠ [] := by
  rw [natDecimal_eq]
  split <;> simp

theorem natDecimal_all_digits (n : Nat) : ∀ c ∈ natDecimal n, isDigitC c = true := by
  induction n using Nat.strong_induction_on with
  | _ n ih =>
    rw [natDecimal_eq]
    split
    · rename_i h10
      intro c hc
      simp only [List.mem_singleton] at hc
      subst hc
      exact isDigitC_digitChar (by omega)
    · rename_i h10
      intro c hc
      rcases List.mem_append.mp hc with hc | hc
      · exact ih (n / 10) (Nat.div_lt_self (by omega) (by omega)) c hc
      · simp only [List.mem_singleton] at hc
        subst hc
        exact isDigitC_digitChar (Nat.mod_lt n (by omega))

theorem digitsFold_append (a : Nat) (xs : List Char) (c : Char) :
    digitsFold a (xs ++ [c]) = (digitsFold a xs) * 10 + (c.toNat - 48) := by
  simp [digitsFold, List.foldl_append]

theorem digitsFold_natDecimal (n : Nat) : digitsFold 0 (natDecimal n) = n := by
  induction n using Nat.strong_induction_on with
  | _ n ih =>
    rw [natDecimal_eq]
    split
    · rename_i h10
      simp [digitsFold, toNat_digitChar h10]
    · rename_i h10
      rw [digitsFold_append, ih (n / 10) (Nat.div_lt_self (by omega) (by omega)),
        toNat_digitChar (Nat.mod_lt n (by omega))]
      omega

theorem parseDigits_append : ∀ (ds rest : List Char) (a : Nat),
    (∀ c ∈ ds, isDigitC c = true) →
    parseDigits (ds ++ rest) a = parseDigits rest (digitsFold a ds)
  | [], rest, a, _ => by simp [digitsFold]
  | c :: cs, rest, a, h => by
    have hc := h c (by simp)
    have hunfold : parseDigits ((c :: cs) ++ rest) a =
        if isDigitC c then parseDigits (cs ++ rest) (a * 10 + (c.toNat - 48))
        else (a, (c :: cs) ++ rest) := rfl
    rw [hunfold, if_pos hc, parseDigits_append cs rest _ (fun x hx => h x (by simp [hx]))]
    simp [digitsFold]

theorem parseDigits_of_not_digit (rest : List Char) (a : Nat) (h : headIsDigit rest = false) :
    parseDigits rest a = (a, rest) := by
  cases rest with
  | nil => rfl
  | cons c cs =>
    simp only [headIsDigit] at h
    simp [parseDigits, h]

theorem parseDigits_snd_le : ∀ (l : List Char) (a : Nat), (parseDigits l a).2.length ≤ l.length
  | [], _ => by simp [parseDigits]
  | c :: cs, a => by
    simp only [parseDigits]
    split
    · exact Nat.le_succ_of_le (parseDigits_snd_le cs _)
    · simp

theorem parseDigits_snd_lt (l : List Char) (a : Nat) (h : headIsDigit l = true) :
    (parseDigits l a).2.length < l.length := by
  cases l with
  | nil => simp [headIsDigit] at h
  | cons c cs =>
    simp only [headIsDigit] at h
    simp only [parseDigits, if_pos h]
    exact Nat.lt_succ_of_le (parseDigits_snd_le cs _)

theorem parseDigits_snd_suffix : ∀ (l : List Char) (a : Nat), (parseDigits l a).2 <:+ l
  | [], _ => List.suffix_rfl
  | c :: cs, a => by
    simp only [parseDigits]
    split
    · exact (parseDigits_snd_suffix cs _).trans (List.suffix_cons c cs)
    · exact List.suffix_rfl

theorem parseDigits_snd_nil : ∀ (l : List Char) (a : Nat), (parseDigits l a).2 = [] →
    ∀ c ∈ l, isDigitC c = true
  | [], _, _ => by simp
  | c :: cs, a, h => by
    simp only [parseDigits] at h
    split at h
    · rename_i hc
      intro x hx
      rcases List.mem_cons.mp hx with rfl | hx
      · exact hc
      · exact parseDigits_snd_nil cs _ h x hx
    · simp at h

/-! ### Lemmas about `strtolC` -/

theorem not_space_of_digit {c : Char} (h : isDigitC c = true) : isSpaceC c = false := by
  simp only [isDigitC, decide_eq_true_eq] at h
  simp only [isSpaceC, decide_eq_false_iff_not]
  omega

theorem ne_minus_of_digit {c : Char} (h : isDigitC c = true) : c ≠ '-' := by
  intro hc
  rw [hc] at h
  exact absurd h (by decide)

theorem ne_plus_of_digit {c : Char} (h : isDigitC c = true) : c ≠ '+' := by
  intro hc
  rw [hc] at h
  exact absurd h (by decide)

theorem ne_nl_of_digit {c : Char} (h : isDigitC c = true) : c ≠ '\n' := by
  intro hc
  rw [hc] at h
  exact absurd h (by decide)

theorem getLast?_of_suffix {l₂ l₁ : List Char} (h : l₂ <:+ l₁) (hne : l₂ ≠ []) :
    l₂.getLast? = l₁.getLast? := by
  obtain ⟨t, rfl⟩ := h
  exact (List.getLast?_append_of_ne_nil t hne).symm

theorem mem_of_getLast?Eq {l : List Char} {a : Char} (h : l.getLast? = Option.some a) : a ∈ l := by
  obtain ⟨hne, rfl⟩ := List.mem_getLast?_eq_getLast (show a ∈ l.getLast? from h)
  exact List.getLast_mem hne

theorem strtolC_snd_suffix (s : List Char) : (strtolC s).2 <:+ s := by
  have hsuf : s.dropWhile isSpaceC <:+ s := List.dropWhile_suffix _
  unfold strtolC
  cases hd : s.dropWhile isSpaceC with
  | nil => exact List.suffix_rfl
  | cons c r =>
    rw [hd] at hsuf
    have hr : r <:+ s := (List.suffix_cons c r).trans hsuf
    simp only [strtolAux]
    split_ifs with h1 h2 h3 h4 h5
    · exact (parseDigits_snd_suffix r 0).trans hr
    · exact List.suffix_rfl
    · exact (parseDigits_snd_suffix r 0).trans hr
    · exact List.suffix_rfl
    · exact (parseDigits_snd_suffix (c :: r) 0).trans hsuf
    · exact List.suffix_rfl

theorem strtolAux_fst_of_snd_eq (s t : List Char) (hsuf : t <:+ s)
    (h : (strtolAux s t).2 = s) : (strtolAux s t).1 = 0 := by
  cases t with
  | nil => rfl
  | cons c r =>
    have hlen : (c :: r).length ≤ s.length := hsuf.length_le
    simp only [strtolAux] at h ⊢
    split_ifs at h ⊢ with h1 h2 h3 h4 h5
    · exfalso
      have hlt : (parseDigits r 0).2.length < r.length := parseDigits_snd_lt r 0 h2
      rw [h] at hlt
      simp only [List.length_cons] at hlen
      omega
    · rfl
    · exfalso
      have hlt : (parseDigits r 0).2.length < r.length := parseDigits_snd_lt r 0 h4
      rw [h] at hlt
      simp only [List.length_cons] at hlen
      omega
    · rfl
    · exfalso
      have hlt : (parseDigits (c :: r) 0).2.length < (c :: r).length :=
        parseDigits_snd_lt (c :: r) 0 (by simpa [headIsDigit] using h5)
      rw [h] at hlt
      simp only [List.length_cons] at hlen hlt
      omega
    · rfl

theorem strtolC_fst_of_snd_eq (s : List Char) (h : (strtolC s).2 = s) : (strtolC s).1 = 0 :=
  strtolAux_fst_of_snd_eq s _ (List.dropWhile_suffix _) h

theorem strtolC_snd_ne_nil (s : List Char) (h : s.getLast? = Option.some '\n') :
    (strtolC s).2 ≠ [] := by
  have hne : s ≠ [] := by
    intro hs
    rw [hs] at h
    simp at h
  have hsuf : s.dropWhile isSpaceC <:+ s := List.dropWhile_suffix _
  unfold strtolC
  cases hd : s.dropWhile isSpaceC with
  | nil => simpa [strtolAux] using hne
  | cons c r =>
    rw [hd] at hsuf
    simp only [strtolAux]
    have habs : ∀ (l : List Char), l ≠ [] → l <:+ s → (∀ x ∈ l, isDigitC x = true) → False := by
      intro l hlne hlsuf hall
      have hlast : l.getLast? = Option.some '\n' := (getLast?_of_suffix hlsuf hlne).trans h
      have hmem : '\n' ∈ l := mem_of_getLast?Eq hlast
      exact absurd (hall '\n' hmem) (by decide)
    split_ifs with h1 h2 h3 h4 h5 <;> try simpa using hne
    · intro hnil
      have hrne : r ≠ [] := by
        cases r with
        | nil => simp [headIsDigit] at h2
        | cons => simp
      exact habs r hrne ((List.suffix_cons c r).trans hsuf) (parseDigits_snd_nil r 0 hnil)
    · intro hnil
      have hrne : r ≠ [] := by
        cases r with
        | nil => simp [headIsDigit] at h4
        | cons => simp
      exact habs r hrne ((List.suffix_cons c r).trans hsuf) (parseDigits_snd_nil r 0 hnil)
    · intro hnil
      exact habs (c :: r) (by simp) hsuf (parseDigits_snd_nil (c :: r) 0 hnil)

theorem contentAfterTs_suffix (e : List Char) : contentAfterTs e <:+ e := by
  have h := strtolC_snd_suffix e
  unfold contentAfterTs
  cases hd : (strtolC e).2 with
  | nil => exact List.nil_suffix
  | cons c r =>
    rw [hd] at h
    simp only [skipOneSpace]
    split_ifs
    · exact (List.suffix_cons c r).trans h
    · exact h

theorem contentAfterTs_getLast (e : List Char) (h : e.getLast? = Option.some '\n') :
    contentAfterTs e ≠ [] ∧ (contentAfterTs e).getLast? = Option.some '\n' := by
  have hne : (strtolC e).2 ≠ [] := strtolC_snd_ne_nil e h
  have hlast : (strtolC e).2.getLast? = Option.some '\n' :=
    (getLast?_of_suffix (strtolC_snd_suffix e) hne).trans h
  unfold contentAfterTs
  cases hd : (strtolC e).2 with
  | nil => exact absurd hd hne
  | cons c r =>
    rw [hd] at hlast
    simp only [skipOneSpace]
    split_ifs with hc
    · cases r with
      | nil =>
        subst hc
        simp at hlast
      | cons d r' =>
        refine ⟨by simp, ?_⟩
        rw [← List.getLast?_cons_cons (a := c)]
        exact hlast
    · exact ⟨by simp, hlast⟩

/-! ### Round-trip: the decimal rendering of `fprintf` re-parses to the same value -/

theorem strtolC_natDecimal_append (n : Nat) (rest : List Char)
    (hrest : headIsDigit rest = false) :
    strtolC (natDecimal n ++ rest) = ((n : Int), rest) := by
  obtain ⟨c, cs, hcons⟩ : ∃ c cs, natDecimal n = c :: cs := by
    cases hnd : natDecimal n with
    | nil => exact absurd hnd (natDecimal_ne_nil n)
    | cons c cs => exact ⟨c, cs, rfl⟩
  have hdigs : ∀ x ∈ natDecimal n, isDigitC x = true := natDecimal_all_digits n
  have hc : isDigitC c = true := hdigs c (by rw [hcons]; simp)
  unfold strtolC
  rw [hcons, List.cons_append, List.dropWhile_cons, not_space_of_digit hc]
  simp only [Bool.false_eq_true, if_false]
  simp only [strtolAux, if_neg (ne_minus_of_digit hc), if_neg (ne_plus_of_digit hc), if_pos hc]
  rw [← List.cons_append, ← hcons, parseDigits_append _ _ _ hdigs,
    parseDigits_of_not_digit _ _ hrest, digitsFold_natDecimal]

theorem strtolC_intDecimal (t : Int) (rest : List Char)
    (hrest : headIsDigit rest = false) :
    strtolC (intDecimal t ++ rest) = (t, rest) := by
  cases t with
  | ofNat n => exact strtolC_natDecimal_append n rest hrest
  | negSucc m =>
    obtain ⟨c, cs, hcons⟩ : ∃ c cs, natDecimal (m + 1) = c :: cs := by
      cases hnd : natDecimal (m + 1) with
      | nil => exact absurd hnd (natDecimal_ne_nil (m + 1))
      | cons c cs => exact ⟨c, cs, rfl⟩
    have hdigs : ∀ x ∈ natDecimal (m + 1), isDigitC x = true := natDecimal_all_digits (m + 1)
    have hc : isDigitC c = true := hdigs c (by rw [hcons]; simp)
    have hhead : headIsDigit (natDecimal (m + 1) ++ rest) = true := by
      rw [hcons]
      simpa [headIsDigit] using hc
    unfold strtolC
    show strtolAux _ (List.dropWhile isSpaceC ('-' :: (natDecimal (m + 1) ++ rest))) = _
    rw [List.dropWhile_cons]
    have hsp : isSpaceC '-' = false := by decide
    rw [hsp]
    simp only [Bool.false_eq_true, if_false]
    simp only [strtolAux, if_pos rfl, if_pos hhead]
    rw [parseDigits_append _ _ _ hdigs, parseDigits_of_not_digit _ _ hrest,
      digitsFold_natDecimal]
    simp [Int.negSucc_eq]

theorem headIsDigit_space_cons (l : List Char) : headIsDigit (' ' :: l) = false := rfl

theorem tsOf_rewriteEntry (e : List Char) : tsOf (rewriteEntry e) = tsOf e := by
  show (strtolC (intDecimal (tsOf e) ++ ' ' :: contentAfterTs e)).1 = tsOf e
  rw [strtolC_intDecimal _ _ (headIsDigit_space_cons _)]

theorem contentAfterTs_rewriteEntry (e : List Char) :
    contentAfterTs (rewriteEntry e) = contentAfterTs e := by
  show skipOneSpace (strtolC (intDecimal (tsOf e) ++ ' ' :: contentAfterTs e)).2 =
    contentAfterTs e
  rw [strtolC_intDecimal _ _ (headIsDigit_space_cons _)]
  simp [skipOneSpace]

theorem timedKeep_rewriteEntry (now p_duration : Int) (e : List Char) :
    timedKeep now p_duration (rewriteEntry e) = timedKeep now p_duration e := by
  unfold timedKeep
  rw [tsOf_rewriteEntry]

theorem intDecimal_ne_nil (t : Int) : intDecimal t ≠ [] := by
  cases t with
  | ofNat n => exact natDecimal_ne_nil n
  | negSucc m => simp [intDecimal]

theorem intDecimal_not_nl (t : Int) : ∀ c ∈ intDecimal t, c ≠ '\n' := by
  cases t with
  | ofNat n => exact fun c hc => ne_nl_of_digit (natDecimal_all_digits n c hc)
  | negSucc m =>
    intro c hc
    simp only [intDecimal, List.mem_cons] at hc
    rcases hc with rfl | hc
    · decide
    · exact ne_nl_of_digit (natDecimal_all_digits (m + 1) c hc)

/-! ### Characterizations of the replay loop -/

theorem replayChunks_timed (p_duration now : Int) : ∀ (chunks : List (List Char)),
    replayChunks PersistenceMode.ptimed p_duration now chunks =
      ((chunks.filter (timedKeep now p_duration)).map contentAfterTs,
       ((chunks.filter (timedKeep now p_duration)).map rewriteEntry).flatten)
  | [] => by simp [replayChunks]
  | line :: rest => by
    simp only [replayChunks, replayChunks_timed p_duration now rest, timedStep,
      List.filter_cons]
    by_cases h : timedKeep now p_duration line
    · simp [h]
    · simp [h]

theorem replayChunks_all (p_duration now : Int) : ∀ (chunks : List (List Char)),
    replayChunks PersistenceMode.pall p_duration now chunks = (chunks, [])
  | [] => by simp [replayChunks]
  | line :: rest => by
    simp [replayChunks, replayChunks_all p_duration now rest]

/-! ### Fan-out lemmas -/

theorem fanout_sends_frame (t m : List Char) : ∀ (fds : List Int) (cs : List Client),
    ∀ p ∈ fanout t m fds cs, p.2 = frameBytes t m := by
  intro fds cs
  induction cs generalizing fds with
  | nil => cases fds <;> simp [fanout]
  | cons c cs ih =>
    cases fds with
    | nil => simp [fanout]
    | cons fd fds =>
      simp only [fanout]
      split_ifs with h1 h2
      · exact ih fds
      · intro p hp
        rcases List.mem_cons.mp hp with rfl | hp
        · rfl
        · exact ih fds p hp
      · exact ih fds

theorem fanout_oversized (t m : List Char)
    (h : BUFFER_SIZE ≤ (frameBytes t m).length) :
    ∀ (fds : List Int) (cs : List Client), fanout t m fds cs = [] := by
  intro fds cs
  induction cs generalizing fds with
  | nil => cases fds <;> simp [fanout]
  | cons c cs ih =>
    cases fds with
    | nil => simp [fanout]
    | cons fd fds =>
      simp only [fanout, if_pos h]
      split_ifs with h1
      · exact ih fds
      · exact ih fds

theorem strchr_nl_append_nl (l r : List Char) (h : ∀ c ∈ l, c ≠ '\n') :
    strchr_nl (l ++ '\n' :: r) = Option.some l.length := by
  induction l with
  | nil => simp [strchr_nl]
  | cons c cs ih =>
    have hc : c ≠ '\n' := h c (by simp)
    have ih' := ih (fun x hx => h x (by simp [hx]))
    calc strchr_nl ((c :: cs) ++ '\n' :: r)
        = (strchr_nl (cs ++ '\n' :: r)).map (fun k => k + 1) := by
          simp [strchr_nl, hc]
      _ = Option.some (cs.length + 1) := by rw [ih']; rfl
      _ = Option.some (c :: cs).length := by simp

/-! ### Claim theorems -/

/-- Claim C1 (code bug): the spec says a valid `SUB` from state Unknown
transitions the connection to Subscriber, records the topic, triggers replay,
and leaves the connection open with Subscriber terminal.  The code records
the topic and triggers replay, but the successful-SUB branch of
handle_client_data has no `return`, so the same invocation falls through to
the subscriber-unexpected-data branch (server.c line 291), which closes the
connection and resets the slot.  Evaluating the model at the failing input
(fd 7, state Unknown, read `SUB weather\n`): replay is triggered, yet fd 7 is
closed and the slot reset in the same call, instead of remaining open as a
Subscriber. -/
theorem sub_processing_closes_fresh_subscriber :
    handle_client_data 0 "SUB weather\n".data [7]
        [{ fd := 7, type := ClientType.unknown, topic := [] }] =
      { fds := [-1], clients := [resetClient], closedFd := Option.some 7,
        replay := Option.some "weather".data, persist := Option.none, sends := [] } := by
  decide

/-- Claim C2 (code bug): the spec says a subscriber whose `SUB T` was
processed before a publish of `(T, M)` receives `MSG T\nM` from the fan-out.
Because the successful-SUB branch falls through and closes the subscribing
connection (see C1), the slot is free again by the time the publish arrives:
fan-out of the publish delivers nothing.  Evaluation: slot 0 processes
`SUB weather\n` (fd 7), then slot 1 (fd 9) processes `PUB weather\nsunny`;
the publish is persisted but the fan-out send list is empty. -/
theorem publish_after_sub_delivers_nothing :
    (handle_client_data 1 "PUB weather\nsunny".data
        (handle_client_data 0 "SUB weather\n".data [7, 9]
          [{ fd := 7, type := ClientType.unknown, topic := [] },
           { fd := 9, type := ClientType.unknown, topic := [] }]).fds
        (handle_client_data 0 "SUB weather\n".data [7, 9]
          [{ fd := 7, type := ClientType.unknown, topic := [] },
           { fd := 9, type := ClientType.unknown, topic := [] }]).clients).persist =
      Option.some ("weather".data, "sunny".data) ∧
    (handle_client_data 1 "PUB weather\nsunny".data
        (handle_client_data 0 "SUB weather\n".data [7, 9]
          [{ fd := 7, type := ClientType.unknown, topic := [] },
           { fd := 9, type := ClientType.unknown, topic := [] }]).fds
        (handle_client_data 0 "SUB weather\n".data [7, 9]
          [{ fd := 7, type := ClientType.unknown, topic := [] },
           { fd := 9, type := ClientType.unknown, topic := [] }]).clients).sends = [] := by
  decide

/-- Claim C4: under timed replay at time `now` with duration `D` on an
existing log, every entry (fgets chunk) with `now - timestamp ≤ D` has its
bare message (timestamp and one space stripped) written to the subscriber and
is re-queued with its original timestamp into the rewritten log; every entry
with `now - timestamp > D` is neither sent nor retained; the final log is
exactly the rewritten temp file (which replaces the original via rename). -/
theorem timed_replay_characterization (fd : Int) (topic : List Char)
    (p_duration now : Int) (content : List Char) :
    send_persisted_messages fd topic PersistenceMode.ptimed p_duration now
        (Option.some content) =
      { sends := ((fgetsChunks content).filter (timedKeep now p_duration)).map contentAfterTs,
        file := Option.some
          (((fgetsChunks content).filter (timedKeep now p_duration)).map
            rewriteEntry).flatten,
        opened := true } := by
  simp [send_persisted_messages, replayChunks_timed]

/-- Claim C6: when every slot is occupied (no pollfd is -1), accepting a new
connection closes the new handle immediately, registers nothing, and leaves
every existing pollfd entry and client record unchanged. -/
theorem accept_rejects_when_full (newSocket : Int) (fds : List Int) (clients : List Client)
    (h : ∀ fd ∈ fds, fd ≠ -1) :
    handle_new_connection newSocket fds clients = ((fds, clients), Option.some newSocket) := by
  induction fds generalizing clients with
  | nil => cases clients <;> rfl
  | cons fd fds ih =>
    cases clients with
    | nil => rfl
    | cons c cs =>
      have hfd : fd ≠ -1 := h fd (by simp)
      simp only [handle_new_connection, if_neg hfd,
        ih cs (fun x hx => h x (by simp [hx]))]

theorem accept_rejects_when_full_witness :
    (∀ fd ∈ ([5, 6] : List Int), fd ≠ -1) ∧
    handle_new_connection 8 [5, 6]
        [{ fd := 5, type := ClientType.subscriber, topic := "t".data },
         { fd := 6, type := ClientType.unknown, topic := [] }] =
      (([5, 6],
        [{ fd := 5, type := ClientType.subscriber, topic := "t".data },
         { fd := 6, type := ClientType.unknown, topic := [] }]), Option.some 8) :=
  ⟨by decide, accept_rejects_when_full 8 [5, 6]
    [{ fd := 5, type := ClientType.subscriber, topic := "t".data },
     { fd := 6, type := ClientType.unknown, topic := [] }] (by decide)⟩

/-- Claim C8: under persistence mode none, append and replay are no-ops:
persist_message leaves the file untouched and opens nothing,
send_persisted_messages sends nothing, touches nothing and opens nothing, and
any number of sequential publishes starting from no log file never creates
one. -/
theorem persist_none_noop (topic message : List Char) (msgs : List (List Char))
    (fd : Int) (p_duration now : Int) (file : Option (List Char)) :
    persist_message topic message PersistenceMode.pnone now file =
      { file := file, opened := false } ∧
    send_persisted_messages fd topic PersistenceMode.pnone p_duration now file =
      { sends := [], file := file, opened := false } ∧
    msgs.foldl (fun f m => (persist_message topic m PersistenceMode.pnone now f).file)
      Option.none = Option.none := by
  refine ⟨rfl, rfl, ?_⟩
  induction msgs with
  | nil => rfl
  | cons m ms ih => simp only [List.foldl_cons]; exact ih

/-- Claim C9: during timed replay, a log entry whose leading timestamp fails
to parse (strtol consumes nothing, so its end pointer is reset to the start
of the line) is treated as timestamp 0; whenever `now > duration` such an
entry fails the retention test and the loop body neither sends it to the
subscriber nor writes it to the rewritten log. -/
theorem unparsable_timestamp_expired (e : List Char) (now p_duration : Int)
    (h1 : (strtolC e).2 = e) (h2 : p_duration < now) :
    tsOf e = 0 ∧ timedKeep now p_duration e = false ∧
    timedStep now p_duration e = ([], []) ∧
    replayChunks PersistenceMode.ptimed p_duration now [e] = ([], []) := by
  have h0 : tsOf e = 0 := strtolC_fst_of_snd_eq e h1
  have hk : timedKeep now p_duration e = false := by
    simp only [timedKeep, h0, decide_eq_false_iff_not]
    omega
  refine ⟨h0, hk, ?_, ?_⟩
  · simp [timedStep, hk]
  · simp [replayChunks, timedStep, hk]

theorem unparsable_timestamp_expired_witness :
    (strtolC "abc hello\n".data).2 = "abc hello\n".data ∧ (5 : Int) < 10 ∧
    (tsOf "abc hello\n".data = 0 ∧ timedKeep 10 5 "abc hello\n".data = false ∧
     timedStep 10 5 "abc hello\n".data = ([], []) ∧
     replayChunks PersistenceMode.ptimed 5 10 ["abc hello\n".data] = ([], [])) :=
  ⟨by decide, by decide, unparsable_timestamp_expired "abc hello\n".data 10 5
    (by decide) (by decide)⟩

/-- Claim C5, counterexample: persist_message under mode all appends the
message bytes verbatim, with no newline added.  Two sequential publishes of
`72F` and `73F` (no trailing newlines, as the stock publisher client sends)
produce a log whose line list is the single line `72F73F` — not two lines
byte-identical to the messages. -/
theorem persist_all_lines_counterexample :
    fileLines (((persist_message "weather".data "73F".data PersistenceMode.pall 0
        (persist_message "weather".data "72F".data PersistenceMode.pall 0
          Option.none).file).file).getD []) = ["72F73F".data] ∧
    ¬ fileLines (((persist_message "weather".data "73F".data PersistenceMode.pall 0
        (persist_message "weather".data "72F".data PersistenceMode.pall 0
          Option.none).file).file).getD []) = ["72F".data, "73F".data] := by
  decide

theorem persistAll_foldl_some (topic : List Char) (now : Int) :
    ∀ (msgs : List (List Char)) (acc : List Char),
    msgs.foldl (fun f m => (persist_message topic m PersistenceMode.pall now f).file)
      (Option.some acc) = Option.some (acc ++ msgs.flatten)
  | [], acc => by simp
  | m :: ms, acc => by
    rw [List.foldl_cons]
    have hstep : (persist_message topic m PersistenceMode.pall now (Option.some acc)).file =
        Option.some (acc ++ m) := rfl
    rw [hstep, persistAll_foldl_some topic now ms (acc ++ m)]
    simp

/-- Claim C5, amended: under persistence mode all, N sequential publishes of
newline-terminated messages containing no interior newline, starting from no
log file, produce exactly N lines in the topic's log, in publish order,
byte-identical to the published messages (the unamended claim fails for
messages lacking a trailing newline, which the code concatenates onto one
line — see the counterexample). -/
theorem persist_all_lines_of_newline_terminated (topic : List Char) (now : Int)
    (msgs : List (List Char))
    (h : ∀ m ∈ msgs, m ≠ [] ∧ m.getLast? = Option.some '\n' ∧ ∀ c ∈ m.dropLast, c ≠ '\n') :
    fileLines ((msgs.foldl
        (fun f m => (persist_message topic m PersistenceMode.pall now f).file)
        Option.none).getD []) = msgs := by
  cases msgs with
  | nil => rfl
  | cons m ms =>
    have hfold : (m :: ms).foldl
        (fun f m => (persist_message topic m PersistenceMode.pall now f).file)
        Option.none = Option.some ((m :: ms).flatten) := by
      rw [List.foldl_cons]
      have hstep : (persist_message topic m PersistenceMode.pall now Option.none).file =
          Option.some m := rfl
      rw [hstep, persistAll_foldl_some topic now ms m]
      simp
    rw [hfold, Option.getD_some]
    exact fileLines_flatten (m :: ms) (fun l hl => (h l hl))

theorem persist_all_lines_witness :
    (∀ m ∈ (["72F\n".data, "73F\n".data] : List (List Char)),
      m ≠ [] ∧ m.getLast? = Option.some '\n' ∧ ∀ c ∈ m.dropLast, c ≠ '\n') ∧
    fileLines (((["72F\n".data, "73F\n".data] : List (List Char)).foldl
        (fun f m => (persist_message "weather".data m PersistenceMode.pall 0 f).file)
        Option.none).getD []) = ["72F\n".data, "73F\n".data] :=
  ⟨by decide, persist_all_lines_of_newline_terminated "weather".data 0
    ["72F\n".data, "73F\n".data] (by decide)⟩

theorem pubPhase_no_newline (i : Nat) (buffer : List Char) (pfdFd : Int) (client : Client)
    (fds : List Int) (clients : List Client) (rAcc : Option (List Char)) (cAcc : Option Int)
    (h : buffer.take 4 = "PUB ".data) (hnl : strchr_nl buffer = Option.none) :
    pubPhase i buffer pfdFd client fds clients rAcc cAcc =
      { fds := fds.set i (-1), clients := clients.set i { client with fd := -1 },
        closedFd := Option.some pfdFd, replay := rAcc,
        persist := Option.none, sends := [] } := by
  unfold pubPhase
  rw [if_pos h]
  simp only [hnl]

theorem pubPhase_some_valid (i : Nat) (buffer : List Char) (pfdFd : Int) (client : Client)
    (fds : List Int) (clients : List Client) (rAcc : Option (List Char)) (cAcc : Option Int)
    (k : Nat) (h : buffer.take 4 = "PUB ".data) (hnl : strchr_nl buffer = Option.some k)
    (hcond : 0 < (k : Int) - 4 ∧ (k : Int) - 4 < (MAX_TOPIC_LEN : Int)) :
    pubPhase i buffer pfdFd client fds clients rAcc cAcc =
      { fds := fds.set i (-1), clients := clients.set i { client with fd := -1 },
        closedFd := Option.some pfdFd, replay := rAcc,
        persist := Option.some ((buffer.drop 4).take (k - 4), buffer.drop (k + 1)),
        sends := fanout ((buffer.drop 4).take (k - 4)) (buffer.drop (k + 1)) fds clients } := by
  unfold pubPhase
  rw [if_pos h]
  simp only [hnl]
  rw [if_pos hcond]

theorem pubPhase_bad_topic (i : Nat) (buffer : List Char) (pfdFd : Int) (client : Client)
    (fds : List Int) (clients : List Client) (rAcc : Option (List Char)) (cAcc : Option Int)
    (k : Nat) (h : buffer.take 4 = "PUB ".data) (hnl : strchr_nl buffer = Option.some k)
    (hcond : ¬ (0 < (k : Int) - 4 ∧ (k : Int) - 4 < (MAX_TOPIC_LEN : Int))) :
    pubPhase i buffer pfdFd client fds clients rAcc cAcc =
      { fds := fds.set i (-1), clients := clients.set i { client with fd := -1 },
        closedFd := Option.some pfdFd, replay := rAcc,
        persist := Option.none, sends := [] } := by
  unfold pubPhase
  rw [if_pos h]
  simp only [hnl]
  rw [if_neg hcond]

theorem handle_pub_phase (i : Nat) (buffer : List Char) (fds : List Int)
    (clients : List Client) (h : buffer.take 4 = "PUB ".data) :
    handle_client_data i buffer fds clients =
      pubPhase i buffer (fds.getD i (-1)) (clients.getD i resetClient) fds clients
        Option.none Option.none := by
  have hsub : ¬ buffer.take 4 = "SUB ".data := by
    rw [h]; decide
  simp only [handle_client_data]
  by_cases ht : (clients.getD i resetClient).type = ClientType.unknown
  · rw [if_pos ht, if_neg hsub, if_pos h]
  · rw [if_neg ht]

/-- Claim C3: for every read buffer beginning with `PUB ` (whatever the
connection's state), handle_client_data closes the connection (pollfd slot
freed, the old fd passed to close); when the buffer has a newline and the
topic before it is non-empty and within the maximum length, persist and
fan-out are invoked on the parsed (topic, remainder-of-buffer); otherwise
nothing is persisted and nothing is forwarded. -/
theorem pub_buffer_single_shot (i : Nat) (buffer : List Char) (fds : List Int)
    (clients : List Client) (h : buffer.take 4 = "PUB ".data) :
    (handle_client_data i buffer fds clients).fds = fds.set i (-1) ∧
    (handle_client_data i buffer fds clients).closedFd =
      Option.some (fds.getD i (-1)) ∧
    (match pubParse buffer with
     | Option.some tm =>
        (handle_client_data i buffer fds clients).persist = Option.some tm ∧
        (handle_client_data i buffer fds clients).sends = fanout tm.1 tm.2 fds clients
     | Option.none =>
        (handle_client_data i buffer fds clients).persist = Option.none ∧
        (handle_client_data i buffer fds clients).sends = []) := by
  rw [handle_pub_phase i buffer fds clients h]
  cases hnl : strchr_nl buffer with
  | none =>
    rw [pubPhase_no_newline i buffer _ _ fds clients _ _ h hnl]
    simp [pubParse, hnl]
  | some k =>
    by_cases hcond : 0 < (k : Int) - 4 ∧ (k : Int) - 4 < (MAX_TOPIC_LEN : Int)
    · rw [pubPhase_some_valid i buffer _ _ fds clients _ _ k h hnl hcond]
      simp only [pubParse, hnl]
      rw [if_pos hcond]
      simp
    · rw [pubPhase_bad_topic i buffer _ _ fds clients _ _ k h hnl hcond]
      simp only [pubParse, hnl]
      rw [if_neg hcond]
      simp

theorem pub_buffer_single_shot_witness :
    ("PUB t\nhi".data.take 4 = "PUB ".data) ∧
    ((handle_client_data 0 "PUB t\nhi".data [4]
        [{ fd := 4, type := ClientType.unknown, topic := [] }]).fds = [4].set 0 (-1) ∧
     (handle_client_data 0 "PUB t\nhi".data [4]
        [{ fd := 4, type := ClientType.unknown, topic := [] }]).closedFd =
       Option.some (([4] : List Int).getD 0 (-1)) ∧
     (match pubParse "PUB t\nhi".data with
      | Option.some tm =>
         (handle_client_data 0 "PUB t\nhi".data [4]
           [{ fd := 4, type := ClientType.unknown, topic := [] }]).persist =
             Option.some tm ∧
         (handle_client_data 0 "PUB t\nhi".data [4]
           [{ fd := 4, type := ClientType.unknown, topic := [] }]).sends =
             fanout tm.1 tm.2 [4] [{ fd := 4, type := ClientType.unknown, topic := [] }]
      | Option.none =>
         (handle_client_data 0 "PUB t\nhi".data [4]
           [{ fd := 4, type := ClientType.unknown, topic := [] }]).persist =
             Option.none ∧
         (handle_client_data 0 "PUB t\nhi".data [4]
           [{ fd := 4, type := ClientType.unknown, topic := [] }]).sends = [])) :=
  ⟨by decide, pub_buffer_single_shot 0 "PUB t\nhi".data [4]
    [{ fd := 4, type := ClientType.unknown, topic := [] }] (by decide)⟩

/-- Claim C10: during fan-out of a validated publish whose framed message
`MSG <topic>\n<message>` does not fit the 1024-byte send buffer, every
matching subscriber is skipped entirely (`snprintf` reports the would-be
length, the loop `continue`s, and no partial or truncated bytes are written
to any subscriber), while the loop still runs over all slots and the publish
transaction still completes: the message is persisted and the publisher's
connection is closed. -/
theorem oversized_frame_skipped (topic msg : List Char) (i : Nat)
    (fds : List Int) (clients : List Client)
    (htop1 : 0 < topic.length) (htop2 : topic.length < MAX_TOPIC_LEN)
    (htopnl : ∀ c ∈ topic, c ≠ '\n')
    (hbig : BUFFER_SIZE ≤ (frameBytes topic msg).length) :
    fanout topic msg fds clients = [] ∧
    (handle_client_data i ("PUB ".data ++ topic ++ '\n' :: msg) fds clients).persist =
      Option.some (topic, msg) ∧
    (handle_client_data i ("PUB ".data ++ topic ++ '\n' :: msg) fds clients).closedFd =
      Option.some (fds.getD i (-1)) ∧
    (handle_client_data i ("PUB ".data ++ topic ++ '\n' :: msg) fds clients).sends = [] := by
  have hfan : ∀ (fds' : List Int) (cs' : List Client), fanout topic msg fds' cs' = [] :=
    fanout_oversized topic msg hbig
  have hPUBlen : ("PUB ".data).length = 4 := rfl
  have htake : ("PUB ".data ++ topic ++ '\n' :: msg).take 4 = "PUB ".data := by
    rw [List.append_assoc]
    exact List.take_left' hPUBlen
  have hnl : strchr_nl ("PUB ".data ++ topic ++ '\n' :: msg) =
      Option.some (4 + topic.length) := by
    have hstep := strchr_nl_append_nl ("PUB ".data ++ topic) msg ?hno
    case hno =>
      intro c hc
      rcases List.mem_append.mp hc with hc | hc
      · have hc4 : c ∈ ['P', 'U', 'B', ' '] := hc
        simp only [List.mem_cons] at hc4
        rcases hc4 with rfl | rfl | rfl | rfl | h0
        · decide
        · decide
        · decide
        · decide
        · exact absurd h0 (List.not_mem_nil c)
      · exact htopnl c hc
    rw [hstep, List.length_append, hPUBlen]
  have h2 : topic.length < 50 := htop2
  have hcond : 0 < ((4 + topic.length : Nat) : Int) - 4 ∧
      ((4 + topic.length : Nat) : Int) - 4 < (MAX_TOPIC_LEN : Int) := by
    have h50 : (MAX_TOPIC_LEN : Int) = 50 := rfl
    constructor
    · push_cast
      omega
    · rw [h50]
      push_cast
      omega
  rw [handle_pub_phase _ _ _ _ htake,
    pubPhase_some_valid i _ _ _ fds clients _ _ (4 + topic.length) htake hnl hcond]
  have hdrop4 : ("PUB ".data ++ topic ++ '\n' :: msg).drop 4 = topic ++ '\n' :: msg := by
    rw [List.append_assoc]
    exact List.drop_left' hPUBlen
  have htopic : (("PUB ".data ++ topic ++ '\n' :: msg).drop 4).take
      (4 + topic.length - 4) = topic := by
    rw [hdrop4]
    have h4 : 4 + topic.length - 4 = topic.length := by omega
    rw [h4, List.take_left]
  have hmsg : ("PUB ".data ++ topic ++ '\n' :: msg).drop (4 + topic.length + 1) = msg := by
    have hassoc : "PUB ".data ++ topic ++ '\n' :: msg =
        ("PUB ".data ++ topic ++ ['\n']) ++ msg := by simp
    rw [hassoc]
    apply List.drop_left'
    simp only [List.length_append, hPUBlen, List.length_singleton]
  refine ⟨hfan fds clients, ?_, rfl, ?_⟩
  · show Option.some
        ((("PUB ".data ++ topic ++ '\n' :: msg).drop 4).take (4 + topic.length - 4),
         ("PUB ".data ++ topic ++ '\n' :: msg).drop (4 + topic.length + 1)) =
      Option.some (topic, msg)
    rw [htopic, hmsg]
  · show fanout ((("PUB ".data ++ topic ++ '\n' :: msg).drop 4).take (4 + topic.length - 4))
        (("PUB ".data ++ topic ++ '\n' :: msg).drop (4 + topic.length + 1)) fds clients = []
    rw [htopic, hmsg]
    exact hfan fds clients

set_option maxRecDepth 40000 in
theorem oversized_frame_skipped_witness :
    (0 < (['t'] : List Char).length ∧ (['t'] : List Char).length < MAX_TOPIC_LEN ∧
      (∀ c ∈ (['t'] : List Char), c ≠ '\n') ∧
      BUFFER_SIZE ≤ (frameBytes ['t'] (List.replicate 1020 'a')).length) ∧
    (fanout ['t'] (List.replicate 1020 'a') [3]
        [{ fd := 3, type := ClientType.subscriber, topic := ['t'] }] = [] ∧
     (handle_client_data 0 ("PUB ".data ++ ['t'] ++ '\n' :: List.replicate 1020 'a') [3]
        [{ fd := 3, type := ClientType.subscriber, topic := ['t'] }]).persist =
       Option.some (['t'], List.replicate 1020 'a') ∧
     (handle_client_data 0 ("PUB ".data ++ ['t'] ++ '\n' :: List.replicate 1020 'a') [3]
        [{ fd := 3, type := ClientType.subscriber, topic := ['t'] }]).closedFd =
       Option.some (([3] : List Int).getD 0 (-1)) ∧
     (handle_client_data 0 ("PUB ".data ++ ['t'] ++ '\n' :: List.replicate 1020 'a') [3]
        [{ fd := 3, type := ClientType.subscriber, topic := ['t'] }]).sends = []) :=
  ⟨⟨by decide, by decide, by decide, by decide⟩,
   oversized_frame_skipped ['t'] (List.replicate 1020 'a') 0 [3]
     [{ fd := 3, type := ClientType.subscriber, topic := ['t'] }]
     (by decide) (by decide) (by decide) (by decide)⟩

theorem dropLast_append_of_ne_nil {l₁ l₂ : List Char} (h : l₂ ≠ []) :
    (l₁ ++ l₂).dropLast = l₁ ++ l₂.dropLast := by
  rw [List.dropLast_append]
  simp [List.isEmpty_eq_false.mpr h]

theorem dropLast_cons_of_ne_nil {a : Char} {l : List Char} (h : l ≠ []) :
    (a :: l).dropLast = a :: l.dropLast := by
  cases l with
  | nil => exact absurd rfl h
  | cons x xs => rw [List.dropLast_cons₂]

theorem chunkTake_no_nl : ∀ (lim : Nat) (l : List Char), (∀ c ∈ l, c ≠ '\n') →
    l.length ≤ lim → chunkTake lim l = (l, [])
  | _, [], _, _ => by simp [chunkTake]
  | 0, _ :: _, _, hlen => by simp at hlen
  | lim + 1, c :: l, h, hlen => by
    have hc : c ≠ '\n' := h c (by simp)
    simp only [chunkTake, if_neg hc]
    rw [chunkTake_no_nl lim l (fun x hx => h x (by simp [hx])) (by simpa using hlen)]

theorem chunksFuel_flatten_last (lim : Nat) : ∀ (lines : List (List Char)) (f : Nat),
    (∀ l ∈ lines, l ≠ [] ∧ (∀ c ∈ l.dropLast, c ≠ '\n') ∧ l.length ≤ lim) →
    (∀ l ∈ lines.dropLast, l.getLast? = Option.some '\n') →
    lines.flatten.length ≤ f →
    chunksFuel lim f lines.flatten = lines
  | [], f, _, _, _ => by cases f <;> simp [chunksFuel]
  | [l], f, h, _, hf => by
    obtain ⟨h1, h3, h4⟩ := h l (by simp)
    obtain ⟨c, l', rfl⟩ : ∃ c l', l = c :: l' := by
      cases l with
      | nil => exact absurd rfl h1
      | cons c l' => exact ⟨c, l', rfl⟩
    cases f with
    | zero => simp at hf
    | succ f =>
      have hflat : ([c :: l'] : List (List Char)).flatten = c :: l' := by simp
      rw [hflat]
      have hstep : chunkTake lim (c :: l') = (c :: l', []) := by
        cases hlast : (c :: l').getLast? with
        | none => simp [List.getLast?_eq_none_iff] at hlast
        | some x =>
          by_cases hx : x = '\n'
          · subst hx
            have := chunkTake_line lim (c :: l') [] (by simp) hlast h3 h4
            simpa using this
          · apply chunkTake_no_nl lim _ _ h4
            intro y hy
            have hdecomp := List.dropLast_append_getLast? x (Option.mem_def.mpr hlast)
            rw [← hdecomp] at hy
            rcases List.mem_append.mp hy with hy | hy
            · exact h3 y hy
            · simp only [List.mem_singleton] at hy
              subst hy
              exact hx
      have hunfold : chunksFuel lim (f + 1) (c :: l') =
          (chunkTake lim (c :: l')).1 :: chunksFuel lim f (chunkTake lim (c :: l')).2 := rfl
      rw [hunfold, hstep]
      cases f <;> simp [chunksFuel]
  | l :: l2 :: ls, f, h, hlast, hf => by
    obtain ⟨h1, h3, h4⟩ := h l (by simp)
    have h2 : l.getLast? = Option.some '\n' := hlast l (by simp [List.dropLast_cons₂])
    obtain ⟨c, l', rfl⟩ : ∃ c l', l = c :: l' := by
      cases l with
      | nil => exact absurd rfl h1
      | cons c l' => exact ⟨c, l', rfl⟩
    cases f with
    | zero =>
      exfalso
      simp only [List.flatten_cons, List.length_append, List.length_cons] at hf
      omega
    | succ f =>
      have hstep : chunkTake lim ((c :: l') ++ (l2 :: ls).flatten) =
          (c :: l', (l2 :: ls).flatten) :=
        chunkTake_line lim (c :: l') _ h1 h2 h3 h4
      have hrec : chunksFuel lim f (l2 :: ls).flatten = l2 :: ls := by
        apply chunksFuel_flatten_last lim (l2 :: ls) f (fun x hx => h x (by simp [hx]))
          (fun x hx => hlast x (by simp [List.dropLast_cons₂, hx]))
        simp only [List.flatten_cons, List.length_append, List.length_cons] at hf ⊢
        omega
      have hunfold : chunksFuel lim (f + 1) ((c :: l') ++ (l2 :: ls).flatten) =
          (chunkTake lim ((c :: l') ++ (l2 :: ls).flatten)).1 ::
            chunksFuel lim f (chunkTake lim ((c :: l') ++ (l2 :: ls).flatten)).2 := rfl
      show chunksFuel lim (f + 1) ((c :: l') :: l2 :: ls).flatten = _
      rw [List.flatten_cons, hunfold, hstep, hrec]

theorem fgetsChunks_flatten_last (lines : List (List Char))
    (h : ∀ l ∈ lines, l ≠ [] ∧ (∀ c ∈ l.dropLast, c ≠ '\n') ∧ l.length ≤ 1023)
    (hlast : ∀ l ∈ lines.dropLast, l.getLast? = Option.some '\n') :
    fgetsChunks lines.flatten = lines :=
  chunksFuel_flatten_last 1023 lines _ h hlast le_rfl

theorem map_dropLast (f : List Char → List Char) :
    ∀ (l : List (List Char)), (l.map f).dropLast = l.dropLast.map f
  | [] => rfl
  | [_] => rfl
  | a :: b :: l => by
    have ih := map_dropLast f (b :: l)
    simp only [List.map_cons] at ih
    simp only [List.map_cons, List.dropLast_cons₂, ih]

theorem mem_dropLast_filter {α : Type} (p : α → Bool) :
    ∀ (l : List α) (a : α), a ∈ (l.filter p).dropLast → a ∈ l.dropLast
  | [], a, h => by simp at h
  | x :: xs, a, h => by
    by_cases hx : p x
    · rw [List.filter_cons_of_pos hx] at h
      cases hfx : xs.filter p with
      | nil =>
        rw [hfx] at h
        simp at h
      | cons y ys =>
        rw [hfx, List.dropLast_cons₂] at h
        have hxs : xs ≠ [] := by
          intro he
          rw [he] at hfx
          simp at hfx
        obtain ⟨b, bs, rfl⟩ : ∃ b bs, xs = b :: bs := by
          cases xs with
          | nil => exact absurd rfl hxs
          | cons b bs => exact ⟨b, bs, rfl⟩
        rw [List.dropLast_cons₂]
        rcases List.mem_cons.mp h with rfl | h
        · exact List.mem_cons_self _ _
        · exact List.mem_cons_of_mem _
            (mem_dropLast_filter p (b :: bs) a (by rw [hfx]; exact h))
    · rw [List.filter_cons_of_neg hx] at h
      have hmem := mem_dropLast_filter p xs a h
      cases xs with
      | nil => simp at hmem
      | cons b bs =>
        rw [List.dropLast_cons₂]
        exact List.mem_cons_of_mem _ hmem

theorem rewriteEntry_ne_nil (e : List Char) : rewriteEntry e ≠ [] := by
  simp [rewriteEntry]

theorem rewriteEntry_getLast (e : List Char) (h : e.getLast? = Option.some '\n') :
    (rewriteEntry e).getLast? = Option.some '\n' := by
  obtain ⟨hbne, hblast⟩ := contentAfterTs_getLast e h
  show (intDecimal (tsOf e) ++ ' ' :: contentAfterTs e).getLast? = Option.some '\n'
  rw [List.getLast?_append_of_ne_nil _ (by simp)]
  cases hb : contentAfterTs e with
  | nil => exact absurd hb hbne
  | cons x xs =>
    rw [List.getLast?_cons_cons, ← hb]
    exact hblast

theorem rewriteEntry_dropLast_ne_nl (content e : List Char)
    (he : e ∈ fgetsChunks content) : ∀ c ∈ (rewriteEntry e).dropLast, c ≠ '\n' := by
  intro c hc
  have hc' : c ∈ (intDecimal (tsOf e) ++ ' ' :: contentAfterTs e).dropLast := hc
  by_cases hb : contentAfterTs e = []
  · rw [hb, dropLast_append_of_ne_nil (by simp)] at hc'
    simp only [List.dropLast_single, List.append_nil] at hc'
    exact intDecimal_not_nl (tsOf e) c hc'
  · rw [dropLast_append_of_ne_nil (by simp), dropLast_cons_of_ne_nil hb] at hc'
    rcases List.mem_append.mp hc' with hc' | hc'
    · exact intDecimal_not_nl (tsOf e) c hc'
    · rcases List.mem_cons.mp hc' with rfl | hc'
      · decide
      · obtain ⟨t, ht⟩ := contentAfterTs_suffix e
        have hdl : e.dropLast = t ++ (contentAfterTs e).dropLast := by
          conv_lhs => rw [← ht]
          exact dropLast_append_of_ne_nil hb
        exact mem_fgetsChunks_dropLast content e he c
          (by rw [hdl]; exact List.mem_append_right t hc')

set_option maxRecDepth 100000 in
/-- Claim C7, counterexample: replay is not idempotent on an arbitrary log.
A single 1023-byte entry `5` + 1021 `a`s + newline fits one fgets chunk, but
its rewrite `5 ` + 1021 `a`s + newline is 1024 bytes: on the second replay
fgets splits it into a 1023-byte chunk and a lone newline, so the first
replay delivers one 1022-byte message while the second delivers a 1021-byte
message and a newline — different sets with no intervening publish, the same
clock value, mode and duration, and no elapsed expiry. -/
theorem replay_not_idempotent_counterexample :
    ¬ ((send_persisted_messages 3 "t".data PersistenceMode.ptimed 60 5
        (send_persisted_messages 3 "t".data PersistenceMode.ptimed 60 5
          (Option.some ('5' :: (List.replicate 1021 'a' ++ ['\n'])))).file).sends =
      (send_persisted_messages 3 "t".data PersistenceMode.ptimed 60 5
        (Option.some ('5' :: (List.replicate 1021 'a' ++ ['\n'])))).sends) := by
  decide

/-- Claim C7, amended: replay is idempotent on unexpired content provided no
entry crosses the 1023-byte fgets line buffer — every entry except possibly
the last is newline-terminated (no line is split across fgets chunks) and
every rewritten `<timestamp> <message>` entry is at most 1023 bytes.  Then a
second replay of the log left by a first replay, with the same mode, duration
and clock value and no intervening publish, delivers the same messages: under
none nothing is sent either time, under all the log is left untouched, and
under timed the first replay's rewritten log retains every surviving entry
with its original timestamp, whose rewritten line re-parses to the same
timestamp and bare message.  The final entry may lack its newline (as logs
written by the stock publisher do): the amendment excludes only what the
counterexample forces. -/
theorem replay_idempotent (fd : Int) (topic : List Char) (p_mode : PersistenceMode)
    (p_duration now : Int) (content : List Char)
    (h1 : ∀ e ∈ (fgetsChunks content).dropLast, e.getLast? = Option.some '\n')
    (h2 : ∀ e ∈ fgetsChunks content, (rewriteEntry e).length ≤ 1023) :
    (send_persisted_messages fd topic p_mode p_duration now
        (send_persisted_messages fd topic p_mode p_duration now
          (Option.some content)).file).sends =
      (send_persisted_messages fd topic p_mode p_duration now
        (Option.some content)).sends := by
  cases p_mode with
  | pnone => rfl
  | pall => rfl
  | ptimed =>
    have hchar1 : send_persisted_messages fd topic PersistenceMode.ptimed p_duration now
        (Option.some content) =
        { sends := ((fgetsChunks content).filter (timedKeep now p_duration)).map
            contentAfterTs,
          file := Option.some ((((fgetsChunks content).filter
            (timedKeep now p_duration)).map rewriteEntry).flatten),
          opened := true } := by
      simp [send_persisted_messages, replayChunks_timed]
    rw [hchar1]
    have hchunks2 : fgetsChunks ((((fgetsChunks content).filter
        (timedKeep now p_duration)).map rewriteEntry).flatten) =
        ((fgetsChunks content).filter (timedKeep now p_duration)).map rewriteEntry := by
      apply fgetsChunks_flatten_last
      · intro l hl
        obtain ⟨e, he, rfl⟩ := List.mem_map.mp hl
        have hee : e ∈ fgetsChunks content := (List.mem_filter.mp he).1
        exact ⟨rewriteEntry_ne_nil e, rewriteEntry_dropLast_ne_nl content e hee, h2 e hee⟩
      · intro l hl
        rw [map_dropLast] at hl
        obtain ⟨e, he, rfl⟩ := List.mem_map.mp hl
        exact rewriteEntry_getLast e (h1 e (mem_dropLast_filter _ _ e he))
    simp only [send_persisted_messages, replayChunks_timed, hchunks2]
    rw [List.filter_map]
    rw [List.filter_congr (fun e _ => by
      simpa using timedKeep_rewriteEntry now p_duration e)]
    rw [List.filter_eq_self.mpr (fun e he => (List.mem_filter.mp he).2)]
    rw [List.map_map]
    exact List.map_congr_left (fun e _ => contentAfterTs_rewriteEntry e)

theorem replay_idempotent_witness :
    (∀ e ∈ (fgetsChunks "5 hi\n30 old".data).dropLast, e.getLast? = Option.some '\n') ∧
    (∀ e ∈ fgetsChunks "5 hi\n30 old".data, (rewriteEntry e).length ≤ 1023) ∧
    (send_persisted_messages 3 "t".data PersistenceMode.ptimed 60 30
        (send_persisted_messages 3 "t".data PersistenceMode.ptimed 60 30
          (Option.some "5 hi\n30 old".data)).file).sends =
      (send_persisted_messages 3 "t".data PersistenceMode.ptimed 60 30
        (Option.some "5 hi\n30 old".data)).sends :=
  ⟨by decide, by decide,
   replay_idempotent 3 "t".data PersistenceMode.ptimed 60 30 "5 hi\n30 old".data
     (by decide) (by decide)⟩

end LiteMQ
